import Mathlib

/-!
Shallow embedding of the event batching/dispatch pipeline of the
pulse-collector repository (package `internal/collector`, the storage sink
in `internal/storage`, and the intake handler in `internal/handler`),
together with proofs of the specified properties.

Conventions of this development:
* `model.EnrichedEvent` payloads are opaque to the collector, so events are
  represented by an abstract identifier (`Nat`).
* The `atomic.Int64` counters of `collector.Stats` are modelled as `Int`
  (the spec's scenarios stay far below the `int64` range, so wraparound is
  not modelled).
* Durations (`time.Duration` values measured by `time.Since`) are
  nanosecond counts, non-negative, hence `Nat` where produced by the code.
* Concurrency is modelled by a labelled small-step transition system whose
  atomic grain is one `select` arm of the worker loop, plus a finer trace
  model whose grain is a single atomic counter update, used for claims
  about concurrent stats reads.
-/

namespace Pulse

/-- Events are opaque payloads: the collector pipeline never inspects the
fields of a `model.EnrichedEvent`, it only moves events around. -/
abbrev Event := Nat

/-- `collector.Stats` (part_009:40-47): the six atomic int64 counters. -/
structure Stats where
  eventsReceived   : Int
  eventsProcessed  : Int
  eventsFailed     : Int
  batchesProcessed : Int
  totalFlushTimeNs : Int
  totalBatchSize   : Int
deriving DecidableEq, Repr

/-- All counters start at zero (Go zero value of the struct). -/
def Stats.init : Stats := ⟨0, 0, 0, 0, 0, 0⟩

/-- One atomic update (`atomic.Int64.Add`) to a single `Stats` field.
This is the grain at which concurrent stats readers can observe state. -/
inductive StatsOp
  | addReceived  (n : Int)
  | addProcessed (n : Int)
  | addFailed    (n : Int)
  | addBatches   (n : Int)
  | addFlushTime (n : Int)
  | addBatchSize (n : Int)
deriving DecidableEq, Repr

/-- Apply one atomic counter update. -/
def applyOp (s : Stats) : StatsOp → Stats
  | .addReceived n  => { s with eventsReceived := s.eventsReceived + n }
  | .addProcessed n => { s with eventsProcessed := s.eventsProcessed + n }
  | .addFailed n    => { s with eventsFailed := s.eventsFailed + n }
  | .addBatches n   => { s with batchesProcessed := s.batchesProcessed + n }
  | .addFlushTime n => { s with totalFlushTimeNs := s.totalFlushTimeNs + n }
  | .addBatchSize n => { s with totalBatchSize := s.totalBatchSize + n }

/-- Apply a sequence of atomic counter updates, oldest first. -/
def applyOps (s : Stats) (ops : List StatsOp) : Stats := ops.foldl applyOp s

/-- Outcome of the two storage write attempts made by one flush:
`CopyFrontendMetrics` succeeds, or it fails and `InsertFrontendMetrics`
succeeds, or both fail. Chosen by the environment (the database). -/
inductive WriteOutcome
  | copyOk
  | copyFailInsertOk
  | copyFailInsertFail
deriving DecidableEq, Repr

/-- The atomic counter updates emitted by `Push` (part_009:157-167), in
program order: `EventsReceived.Add(1)` always, then `EventsFailed.Add(1)`
exactly when the send on the full channel falls to the `default` arm. -/
def pushOps (dropped : Bool) : List StatsOp :=
  .addReceived 1 :: (if dropped then [.addFailed 1] else [])

/-- The atomic counter updates emitted by one execution of the `flush`
closure (part_009:79-121) on a non-empty snapshot of `n` events taking
`t` ns, in program order.  On COPY failure `EventsFailed.Add(n)` happens
first (line 96); if the INSERT fallback then succeeds the code adds `n` to
`EventsProcessed` (line 105) and adds `-n` to `EventsFailed` (line 106,
"Correct the failed count").  `BatchesProcessed`, `TotalFlushTimeNs` and
`TotalBatchSize` are updated at the end regardless of outcome
(lines 112-114). -/
def flushOps (n : Nat) (o : WriteOutcome) (t : Nat) : List StatsOp :=
  (match o with
    | .copyOk             => [.addProcessed n]
    | .copyFailInsertOk   => [.addFailed n, .addProcessed n, .addFailed (-(n : Int))]
    | .copyFailInsertFail => [.addFailed n])
  ++ [.addBatches 1, .addFlushTime t, .addBatchSize n]

/-- A call into the storage sink, with the snapshot it was handed. -/
inductive SinkCall
  | copy   (events : List Event)
  | insert (events : List Event)
deriving DecidableEq, Repr

/-- The sink calls a flush of snapshot `b` performs: `CopyFrontendMetrics`
always (part_009:90), and `InsertFrontendMetrics` on the same snapshot
exactly when COPY failed (part_009:99). -/
def flushCalls (b : List Event) : WriteOutcome → List SinkCall
  | .copyOk             => [.copy b]
  | .copyFailInsertOk   => [.copy b, .insert b]
  | .copyFailInsertFail => [.copy b, .insert b]

/-- The state a single worker-loop operation touches: the worker's private
batch buffer, the shared stats, and the (ghost) log of sink calls. -/
structure WState where
  batch     : List Event
  stats     : Stats
  sinkCalls : List SinkCall
deriving DecidableEq, Repr

/-- The `flush` closure of `worker` (part_009:79-121): if the batch is
empty, return immediately; otherwise snapshot the batch, reset the buffer,
hand the snapshot to the sink (COPY, then INSERT as fallback on failure),
and perform the counter updates of `flushOps`. `t` is the elapsed time
`time.Since(start)` in ns, `o` the write outcome. -/
def flushStep (o : WriteOutcome) (t : Nat) (s : WState) : WState :=
  if s.batch.isEmpty then s
  else
    { batch     := []
      stats     := applyOps s.stats (flushOps s.batch.length o t)
      sinkCalls := s.sinkCalls ++ flushCalls s.batch o }

/-- `BatchConfig` (part_009:14-18). The flush interval is a duration in ns;
it plays no role in the untimed model but is kept for fidelity. -/
structure BatchConfig where
  batchSize       : Nat
  flushIntervalNs : Nat
  workers         : Nat
deriving DecidableEq, Repr

/-- The `case event := <-c.eventCh` arm of the worker loop
(part_009:125-129): append the event to the batch, then flush exactly when
the batch has reached the configured size. -/
def handleEvent (cfg : BatchConfig) (o : WriteOutcome) (t : Nat)
    (s : WState) (e : Event) : WState :=
  let s1 : WState := { s with batch := s.batch ++ [e] }
  if cfg.batchSize ≤ s1.batch.length then flushStep o t s1 else s1

/-- The `case <-ticker.C` arm of the worker loop (part_009:131-132):
flush (the closure itself ignores batches that are empty). -/
def handleTick (o : WriteOutcome) (t : Nat) (s : WState) : WState :=
  flushStep o t s

/-- Queue capacity: `make(chan model.EnrichedEvent, config.BatchSize*10)`
in `NewBatchCollector` (part_009:53). -/
def queueCapacity (cfg : BatchConfig) : Nat := cfg.batchSize * 10

/-- The payloads handed to the bulk-copy path, i.e. the batches flushed,
in flush order: every flush begins with a `copy` call on its snapshot. -/
def copyPayloads (cs : List SinkCall) : List (List Event) :=
  cs.filterMap fun c => match c with | .copy es => some es | .insert _ => none

section Timestamp

/-- `time.Hour` in nanoseconds. -/
def hourNs : Int := 3600000000000

/-- Timestamp validation in `CollectHandler.Handle` (part_010:84-93).
Times are nanoseconds relative to an arbitrary origin, with `0` the Go
zero `time.Time` (`IsZero`). `now` is the server time: if the incoming
time is the zero value, replace it by `now`; otherwise compute
`diff := time.Since(event.Time) = now - t` and replace by `now` exactly
when `diff < -time.Hour || diff > time.Hour`. -/
def validateTimestamp (now t : Int) : Int :=
  if t = 0 then now
  else
    let diff := now - t
    if diff < -hourNs ∨ diff > hourNs then now else t

/-- Modelled from the words of the claim, for comparison: the timestamp is
replaced with server time iff it is missing (zero) or differs from server
time by more than one hour in either direction. -/
def claimTimestamp (now t : Int) : Int :=
  if t = 0 ∨ hourNs < |t - now| then now else t

end Timestamp

section Storage

/-- A request issued on the pgx connection pool: a parameterized statement
(`pool.Exec`) carrying the SQL text and the number of bound arguments, or a
bulk copy (`pool.CopyFrom`) carrying the destination table, column list and
row count. Argument and cell values are opaque here. -/
inductive DbOp
  | exec (query : String) (args : Nat)
  | copyFrom (table : String) (columns : List String) (rows : Nat)
deriving DecidableEq, Repr

/-- Column list shared by `InsertFrontendMetrics` (part_012:62-66) and
`CopyFrontendMetrics` (part_012:260-264). -/
def frontendColumns : List String :=
  [ "time", "session_id", "player_id", "device_type", "browser", "country",
    "event_type", "page_path", "lcp_ms", "fid_ms", "cls", "ttfb_ms",
    "fcp_ms", "inp_ms", "metric_name", "metric_value", "metadata" ]

/-- Separator used by `strings.Join(_, ", ")`. -/
def commaSep : String := ", "

/-- `fmt.Sprintf("$%d", base+j+1)` for one placeholder group: the group of
positional placeholders for row `i` (part_012:71-77). -/
def placeholderGroup (ncols i : Nat) : String :=
  "(" ++ String.intercalate commaSep
    ((List.range ncols).map fun j => "$" ++ toString (i * ncols + j + 1)) ++ ")"

/-- The SQL text built by `InsertFrontendMetrics` for `n` rows
(part_012:86-90). -/
def insertFrontendQuery (n : Nat) : String :=
  "INSERT INTO frontend_metrics (" ++ String.intercalate commaSep frontendColumns
    ++ ") VALUES "
    ++ String.intercalate commaSep
      ((List.range n).map (placeholderGroup frontendColumns.length))

/-- `Postgres.InsertFrontendMetrics` (part_012:56-94): on an empty slice
return `nil` at once, issuing nothing to the pool; otherwise build the
multi-row insert and execute it, returning the pool's error. The result is
the list of pool requests issued and the returned error (`none` = nil). -/
def InsertFrontendMetrics (db : DbOp → Option String) (events : List Event) :
    List DbOp × Option String :=
  if events.length = 0 then ([], none)
  else
    let op : DbOp := .exec (insertFrontendQuery events.length)
      (events.length * frontendColumns.length)
    ([op], db op)

/-- `Postgres.CopyFrontendMetrics` (part_012:255-283): on an empty slice
return `nil` at once, issuing nothing to the pool; otherwise stream all
rows with one `CopyFrom`, returning the pool's error. -/
def CopyFrontendMetrics (db : DbOp → Option String) (events : List Event) :
    List DbOp × Option String :=
  if events.length = 0 then ([], none)
  else
    let op : DbOp := .copyFrom "frontend_metrics" frontendColumns events.length
    ([op], db op)

end Storage

section System

/-- Progress of one worker goroutine through its loop: running the main
`select` (`active`), inside the shutdown drain loop (`draining`), or
returned (`exited`). -/
inductive Mode
  | active
  | draining
  | exited
deriving DecidableEq, Repr

/-- One worker goroutine: its loop mode and its private batch buffer. -/
structure Worker where
  mode  : Mode
  batch : List Event
deriving DecidableEq, Repr

/-- The whole collector: the bounded intake channel (FIFO, head = oldest),
the worker pool, the shared stats, the ghost log of sink calls, whether the
`shutdown` channel has been closed, and whether the outer context has been
cancelled. -/
structure Sys where
  queue     : List Event
  workers   : List Worker
  stats     : Stats
  sinkCalls : List SinkCall
  closed    : Bool
  cancelled : Bool
deriving DecidableEq, Repr

/-- `NewBatchCollector` (part_009:49-56) followed by `Start` (part_009:58-70):
empty queue, fresh stats, `cfg.workers` workers each with an empty batch. -/
def newCollector (cfg : BatchConfig) : Sys :=
  { queue     := []
    workers   := List.replicate cfg.workers ⟨.active, []⟩
    stats     := Stats.init
    sinkCalls := []
    closed    := false
    cancelled := false }

/-- `Push` (part_009:157-167): increment `EventsReceived`, then try a
non-blocking send; a buffered channel send is ready iff the buffer holds
fewer than its capacity, otherwise the `default` arm drops the event and
increments `EventsFailed`. Total (never blocks, never panics). -/
def Push (cfg : BatchConfig) (s : Sys) (e : Event) : Sys :=
  let s1 : Sys := { s with stats := applyOp s.stats (.addReceived 1) }
  if s1.queue.length < queueCapacity cfg then
    { s1 with queue := s1.queue ++ [e] }
  else
    { s1 with stats := applyOp s1.stats (.addFailed 1) }

/-- Update worker `i` with the result of a worker-local operation that ran
on (its batch, the shared stats, the sink log), leaving it in mode `m`. -/
def setW (s : Sys) (i : Nat) (m : Mode) (ws : WState) : Sys :=
  { s with workers   := s.workers.set i ⟨m, ws.batch⟩
           stats     := ws.stats
           sinkCalls := ws.sinkCalls }

/-- Labels of the transition system: which atomic operation ran, with the
environment's choices (event value, write outcome, flush duration). -/
inductive Label
  | push (e : Event)
  | recv (i : Nat) (o : WriteOutcome) (t : Nat)
  | tick (i : Nat) (o : WriteOutcome) (t : Nat)
  | close
  | observe (i : Nat)
  | drainOne (i : Nat)
  | drainFlush (i : Nat) (o : WriteOutcome) (t : Nat)
  | cancel
  | cancelExit (i : Nat) (o : WriteOutcome) (t : Nat)
deriving DecidableEq, Repr

/-- Whether a label is a producer `Push`. -/
def Label.isPush : Label → Bool
  | .push _ => true
  | _ => false

/-- Whether a label is a context-cancellation exit of a worker. -/
def Label.isCancelExit : Label → Bool
  | .cancelExit _ _ _ => true
  | _ => false

/-- Labelled small-step semantics of the collector. Each step is one
`select` arm of one goroutine (or a `Push` by a producer, the closing of
the shutdown channel in `Shutdown`, or a cancellation of the outer
context); the hypotheses say when the arm is enabled in Go:
* `recv`: worker `i` is in its main `select` and the channel receive is
  ready (queue non-empty with head `e`); it runs part_009:125-129.
* `tick`: the ticker arm, part_009:131-132.
* `close`: `close(c.shutdown)`, part_009:178; closing twice would panic,
  so it requires `closed = false`.
* `observe`: worker `i` sees the closed shutdown channel and enters the
  drain loop, part_009:134-136.
* `drainOne`: one drain-loop iteration wins a queued event,
  part_009:138-140; the `default` arm is only taken when the receive is
  not ready, so it requires a non-empty queue.
* `drainFlush`: the drain loop ends on an empty queue, flushes once and
  the worker returns, part_009:141-147.
* `cancelExit`: worker `i` sees `ctx.Done()`, flushes once best-effort
  and returns without draining, part_009:149-151. -/
inductive Step (cfg : BatchConfig) : Label → Sys → Sys → Prop
  | push (e : Event) (s : Sys) :
      Step cfg (.push e) s (Push cfg s e)
  | recv (i : Nat) (o : WriteOutcome) (t : Nat) (s : Sys) (b : List Event)
      (e : Event) (q : List Event)
      (hw : s.workers.get? i = some ⟨.active, b⟩) (hq : s.queue = e :: q) :
      Step cfg (.recv i o t) s
        { setW s i .active (handleEvent cfg o t ⟨b, s.stats, s.sinkCalls⟩ e)
            with queue := q }
  | tick (i : Nat) (o : WriteOutcome) (t : Nat) (s : Sys) (b : List Event)
      (hw : s.workers.get? i = some ⟨.active, b⟩) :
      Step cfg (.tick i o t) s
        (setW s i .active (flushStep o t ⟨b, s.stats, s.sinkCalls⟩))
  | close (s : Sys) (h : s.closed = false) :
      Step cfg .close s { s with closed := true }
  | observe (i : Nat) (s : Sys) (b : List Event)
      (hc : s.closed = true) (hw : s.workers.get? i = some ⟨.active, b⟩) :
      Step cfg (.observe i) s
        { s with workers := s.workers.set i ⟨.draining, b⟩ }
  | drainOne (i : Nat) (s : Sys) (b : List Event) (e : Event) (q : List Event)
      (hw : s.workers.get? i = some ⟨.draining, b⟩) (hq : s.queue = e :: q) :
      Step cfg (.drainOne i) s
        { s with queue := q, workers := s.workers.set i ⟨.draining, b ++ [e]⟩ }
  | drainFlush (i : Nat) (o : WriteOutcome) (t : Nat) (s : Sys) (b : List Event)
      (hw : s.workers.get? i = some ⟨.draining, b⟩) (hq : s.queue = []) :
      Step cfg (.drainFlush i o t) s
        (setW s i .exited (flushStep o t ⟨b, s.stats, s.sinkCalls⟩))
  | cancel (s : Sys) :
      Step cfg .cancel s { s with cancelled := true }
  | cancelExit (i : Nat) (o : WriteOutcome) (t : Nat) (s : Sys) (b : List Event)
      (hc : s.cancelled = true) (hw : s.workers.get? i = some ⟨.active, b⟩) :
      Step cfg (.cancelExit i o t) s
        (setW s i .exited (flushStep o t ⟨b, s.stats, s.sinkCalls⟩))

/-- A finite run of the system under a list of labels, oldest first. -/
inductive Steps (cfg : BatchConfig) : List Label → Sys → Sys → Prop
  | nil (s : Sys) : Steps cfg [] s s
  | cons (l : Label) (ls : List Label) (s t u : Sys)
      (hstep : Step cfg l s t) (hrest : Steps cfg ls t u) :
      Steps cfg (l :: ls) s u

/-- `model.CollectorStats` (part_008:114-123), the snapshot returned by
`GetStats`. The two `float64` averages are modelled exactly over `ℚ`. -/
structure CollectorStats where
  eventsReceived   : Int
  eventsProcessed  : Int
  eventsFailed     : Int
  batchesProcessed : Int
  queueSize        : Nat
  avgBatchSize     : ℚ
  avgFlushTimeMS   : ℚ
deriving DecidableEq, Repr

/-- `GetStats` (part_009:184-204): load the counters; the two averages are
zero-initialized and assigned only inside `if batchCount > 0`, as
`totalSize/batchCount` and `totalFlushTime/batchCount/1e6`. -/
def GetStats (s : Sys) : CollectorStats :=
  let batchCount := s.stats.batchesProcessed
  let totalSize := s.stats.totalBatchSize
  let totalFlushTime := s.stats.totalFlushTimeNs
  let avgs : ℚ × ℚ :=
    if 0 < batchCount then
      ((totalSize : ℚ) / (batchCount : ℚ),
       (totalFlushTime : ℚ) / (batchCount : ℚ) / 1000000)
    else (0, 0)
  { eventsReceived   := s.stats.eventsReceived
    eventsProcessed  := s.stats.eventsProcessed
    eventsFailed     := s.stats.eventsFailed
    batchesProcessed := batchCount
    queueSize        := s.queue.length
    avgBatchSize     := avgs.1
    avgFlushTimeMS   := avgs.2 }

end System

section StatsTraces

/-- The blocks of atomic counter updates the pipeline's code can emit: a
`Push` emits `pushOps`, a flush of a non-empty batch emits `flushOps`.
(The empty-batch early return emits nothing.) -/
def ProgBlock (b : List StatsOp) : Prop :=
  (∃ d, b = pushOps d) ∨ ∃ n o t, 0 < n ∧ b = flushOps n o t

/-- `Interleaving bs tr`: `tr` is an order-preserving interleaving of the
blocks `bs` — at each step some block contributes its next element. This
is the set of op orders a concurrent stats reader can race against. -/
inductive Interleaving {α : Type} : List (List α) → List α → Prop
  | nil (bs : List (List α)) (h : ∀ b ∈ bs, b = []) : Interleaving bs []
  | step (bs : List (List α)) (i : Nat) (x : α) (rest tr : List α)
      (hb : bs.get? i = some (x :: rest))
      (htail : Interleaving (bs.set i rest) tr) :
      Interleaving bs (x :: tr)

/-- Pointwise order on all six counters. -/
def StatsLe (a b : Stats) : Prop :=
  a.eventsReceived ≤ b.eventsReceived ∧
  a.eventsProcessed ≤ b.eventsProcessed ∧
  a.eventsFailed ≤ b.eventsFailed ∧
  a.batchesProcessed ≤ b.batchesProcessed ∧
  a.totalFlushTimeNs ≤ b.totalFlushTimeNs ∧
  a.totalBatchSize ≤ b.totalBatchSize

instance (a b : Stats) : Decidable (StatsLe a b) := by
  unfold StatsLe; infer_instance

/-- Pointwise order on the five counters other than `eventsFailed`. -/
def StatsLe5 (a b : Stats) : Prop :=
  a.eventsReceived ≤ b.eventsReceived ∧
  a.eventsProcessed ≤ b.eventsProcessed ∧
  a.batchesProcessed ≤ b.batchesProcessed ∧
  a.totalFlushTimeNs ≤ b.totalFlushTimeNs ∧
  a.totalBatchSize ≤ b.totalBatchSize

instance (a b : Stats) : Decidable (StatsLe5 a b) := by
  unfold StatsLe5; infer_instance

/-- Claim C1 as stated: for every collection of op blocks the program can
emit, every interleaving of them, and every pair of successive reads
(prefix lengths `i ≤ j`), no counter in the later read is smaller. -/
def statsMonotoneClaim : Prop :=
  ∀ (bs : List (List StatsOp)) (tr : List StatsOp),
    (∀ b ∈ bs, ProgBlock b) → Interleaving bs tr →
    ∀ i j : Nat, i ≤ j →
      StatsLe (applyOps Stats.init (tr.take i)) (applyOps Stats.init (tr.take j))

end StatsTraces

/-! ### Basic computation lemmas -/

theorem flushStep_of_ne (o : WriteOutcome) (t : Nat) (s : WState)
    (h : s.batch ≠ []) :
    flushStep o t s =
      { batch := []
        stats := applyOps s.stats (flushOps s.batch.length o t)
        sinkCalls := s.sinkCalls ++ flushCalls s.batch o } := by
  unfold flushStep
  simp [List.isEmpty_iff, h]

theorem foldl_handleEvent_no_flush (cfg : BatchConfig) (o : WriteOutcome)
    (t : Nat) :
    ∀ (es : List Event) (s : WState),
      s.batch.length + es.length < cfg.batchSize →
      es.foldl (handleEvent cfg o t) s = { s with batch := s.batch ++ es } := by
  intro es
  induction es with
  | nil => intro s _; simp
  | cons e rest ih =>
      intro s h
      have hcond : ¬ cfg.batchSize ≤ s.batch.length + 1 := by
        simp only [List.length_cons] at h
        omega
      have h1 : handleEvent cfg o t s e = { s with batch := s.batch ++ [e] } := by
        simp [handleEvent, hcond]
      rw [List.foldl_cons, h1, ih]
      · simp
      · simp only [List.length_append, List.length_cons, List.length_nil] at h ⊢
        omega

theorem foldl_handleEvent_fill (cfg : BatchConfig) (o : WriteOutcome)
    (t : Nat) :
    ∀ (es : List Event) (s : WState),
      es ≠ [] →
      s.batch.length + es.length = cfg.batchSize →
      es.foldl (handleEvent cfg o t) s =
        { batch := []
          stats := applyOps s.stats (flushOps cfg.batchSize o t)
          sinkCalls := s.sinkCalls ++ flushCalls (s.batch ++ es) o } := by
  intro es
  induction es with
  | nil => intro s hne _; exact absurd rfl hne
  | cons e rest ih =>
      intro s _ hlen
      cases rest with
      | nil =>
          have hlen1 : (s.batch ++ [e]).length = cfg.batchSize := by
            simp only [List.length_cons, List.length_nil] at hlen
            simp [hlen]
          have hcond : cfg.batchSize ≤ s.batch.length + 1 := by
            simp only [List.length_append, List.length_cons, List.length_nil] at hlen1
            omega
          have hne1 : s.batch ++ [e] ≠ [] := by simp
          have h1 : handleEvent cfg o t s e =
              flushStep o t { s with batch := s.batch ++ [e] } := by
            simp [handleEvent, hcond]
          rw [List.foldl_cons, List.foldl_nil, h1,
            flushStep_of_ne _ _ _ hne1, hlen1]
      | cons r rest2 =>
          have hcond : ¬ cfg.batchSize ≤ s.batch.length + 1 := by
            simp only [List.length_cons] at hlen
            omega
          have h1 : handleEvent cfg o t s e = { s with batch := s.batch ++ [e] } := by
            simp [handleEvent, hcond]
          rw [List.foldl_cons, h1, ih]
          · simp
          · simp
          · simp only [List.length_append, List.length_cons, List.length_nil] at hlen ⊢
            omega

theorem copyPayloads_flushCalls (b : List Event) (o : WriteOutcome) :
    copyPayloads (flushCalls b o) = [b] := by
  cases o <;> rfl

theorem copyPayloads_append (cs ds : List SinkCall) :
    copyPayloads (cs ++ ds) = copyPayloads cs ++ copyPayloads ds := by
  unfold copyPayloads
  exact List.filterMap_append ..

/-! ### Claim theorems: worker-local flush behaviour -/

/-- C2: for every flush of a non-empty batch where the bulk copy fails and
the row-insert fallback succeeds, comparing stats after the flush to
before: `events_processed` grows by exactly the batch size,
`events_failed` is unchanged (hence does not increase), and the same
snapshot is handed first to the copy path and then retried on the insert
path, so the events are not discarded. -/
theorem fallback_correctness (s : WState) (t : Nat) (hne : s.batch ≠ []) :
    (flushStep .copyFailInsertOk t s).stats.eventsProcessed
        = s.stats.eventsProcessed + s.batch.length ∧
    (flushStep .copyFailInsertOk t s).stats.eventsFailed
        = s.stats.eventsFailed ∧
    (flushStep .copyFailInsertOk t s).sinkCalls
        = s.sinkCalls ++ [.copy s.batch, .insert s.batch] := by
  rw [flushStep_of_ne _ _ _ hne]
  refine ⟨?_, ?_, rfl⟩ <;>
    simp [applyOps, flushOps, applyOp]

theorem fallback_correctness_witness :
    (flushStep .copyFailInsertOk 5 ⟨[1], Stats.init, []⟩).stats.eventsProcessed
        = Stats.init.eventsProcessed + ([1] : List Event).length ∧
    (flushStep .copyFailInsertOk 5 ⟨[1], Stats.init, []⟩).stats.eventsFailed
        = Stats.init.eventsFailed ∧
    (flushStep .copyFailInsertOk 5 ⟨[1], Stats.init, []⟩).sinkCalls
        = [] ++ [.copy [1], .insert [1]] :=
  fallback_correctness ⟨[1], Stats.init, []⟩ 5 (by decide)

/-- C5: pushing exactly `batch_size` events to a single idle worker, with
no timer tick intervening, causes exactly one flush (one batch counted,
one copy payload) whose batch is exactly the pushed events, and never
flushes before the batch is full. -/
theorem batch_size_trigger (cfg : BatchConfig) (o : WriteOutcome) (t : Nat)
    (es : List Event) (hB : 1 ≤ cfg.batchSize)
    (hlen : es.length = cfg.batchSize) :
    copyPayloads (es.foldl (handleEvent cfg o t) ⟨[], Stats.init, []⟩).sinkCalls
        = [es] ∧
    (es.foldl (handleEvent cfg o t) ⟨[], Stats.init, []⟩).batch = [] ∧
    (es.foldl (handleEvent cfg o t) ⟨[], Stats.init, []⟩).stats.batchesProcessed
        = 1 := by
  have hne : es ≠ [] := by
    intro h
    rw [h] at hlen
    simp at hlen
    omega
  rw [foldl_handleEvent_fill cfg o t es ⟨[], Stats.init, []⟩ hne (by simpa using hlen)]
  refine ⟨?_, rfl, ?_⟩
  · simp [copyPayloads_flushCalls]
  · cases o <;> simp [applyOps, flushOps, applyOp, Stats.init]

theorem batch_size_trigger_witness :
    copyPayloads (([3, 4] : List Event).foldl
        (handleEvent ⟨2, 0, 1⟩ .copyOk 0) ⟨[], Stats.init, []⟩).sinkCalls
        = [[3, 4]] ∧
    (([3, 4] : List Event).foldl
        (handleEvent ⟨2, 0, 1⟩ .copyOk 0) ⟨[], Stats.init, []⟩).batch = [] ∧
    (([3, 4] : List Event).foldl
        (handleEvent ⟨2, 0, 1⟩ .copyOk 0) ⟨[], Stats.init, []⟩).stats.batchesProcessed
        = 1 :=
  batch_size_trigger ⟨2, 0, 1⟩ .copyOk 0 [3, 4] (by decide) (by decide)

/-- C6: pushing `batch_size - 1` events to one idle worker triggers no
flush, and the next timer tick flushes exactly once, with a batch that is
exactly those events in arrival order. -/
theorem timer_trigger (cfg : BatchConfig) (o o2 : WriteOutcome) (t t2 : Nat)
    (es : List Event) (hB : 2 ≤ cfg.batchSize)
    (hlen : es.length + 1 = cfg.batchSize) :
    (es.foldl (handleEvent cfg o t) ⟨[], Stats.init, []⟩).sinkCalls = [] ∧
    copyPayloads (handleTick o2 t2
        (es.foldl (handleEvent cfg o t) ⟨[], Stats.init, []⟩)).sinkCalls = [es] ∧
    (handleTick o2 t2
        (es.foldl (handleEvent cfg o t) ⟨[], Stats.init, []⟩)).stats.batchesProcessed
        = 1 := by
  have hne : es ≠ [] := by
    intro h
    rw [h] at hlen
    simp at hlen
    omega
  have hfold : es.foldl (handleEvent cfg o t) ⟨[], Stats.init, []⟩ =
      (⟨es, Stats.init, []⟩ : WState) := by
    have := foldl_handleEvent_no_flush cfg o t es ⟨[], Stats.init, []⟩
      (by simp; omega)
    simpa using this
  rw [hfold]
  have hne2 : ((⟨es, Stats.init, []⟩ : WState)).batch ≠ [] := hne
  refine ⟨rfl, ?_, ?_⟩ <;>
    rw [handleTick, flushStep_of_ne _ _ _ hne2]
  · simp [copyPayloads_flushCalls]
  · cases o2 <;> simp [applyOps, flushOps, applyOp, Stats.init]

theorem timer_trigger_witness :
    (([3] : List Event).foldl
        (handleEvent ⟨2, 0, 1⟩ .copyOk 0) ⟨[], Stats.init, []⟩).sinkCalls = [] ∧
    copyPayloads (handleTick .copyOk 7
        (([3] : List Event).foldl
          (handleEvent ⟨2, 0, 1⟩ .copyOk 0) ⟨[], Stats.init, []⟩)).sinkCalls
        = [[3]] ∧
    (handleTick .copyOk 7
        (([3] : List Event).foldl
          (handleEvent ⟨2, 0, 1⟩ .copyOk 0) ⟨[], Stats.init, []⟩)).stats.batchesProcessed
        = 1 :=
  timer_trigger ⟨2, 0, 1⟩ .copyOk .copyOk 0 7 [3] (by decide) (by decide)

/-! ### Claim theorems: Push, GetStats, timestamp, storage guards -/

theorem foldl_push_received (cfg : BatchConfig) :
    ∀ (es : List Event) (s : Sys),
      (es.foldl (Push cfg) s).stats.eventsReceived
        = s.stats.eventsReceived + es.length := by
  intro es
  induction es with
  | nil => intro s; simp
  | cons e rest ih =>
      intro s
      have h1 : (Push cfg s e).stats.eventsReceived = s.stats.eventsReceived + 1 := by
        by_cases hc : s.queue.length < queueCapacity cfg <;> simp [Push, hc, applyOp]
      rw [List.foldl_cons, ih, h1]
      simp only [List.length_cons]
      push_cast
      ring

theorem foldl_push_failed (cfg : BatchConfig) :
    ∀ (es : List Event) (s : Sys),
      s.queue.length ≤ queueCapacity cfg →
      (es.foldl (Push cfg) s).stats.eventsFailed
        = s.stats.eventsFailed
          + ((s.queue.length + es.length - queueCapacity cfg : Nat) : Int) := by
  intro es
  induction es with
  | nil =>
      intro s h
      simp only [List.foldl_nil, List.length_nil]
      have h0 : s.queue.length + 0 - queueCapacity cfg = 0 := by omega
      rw [h0]
      simp
  | cons e rest ih =>
      intro s h
      by_cases hfull : s.queue.length < queueCapacity cfg
      · have hq1 : (Push cfg s e).queue = s.queue ++ [e] := by
          simp [Push, hfull]
        have hf1 : (Push cfg s e).stats.eventsFailed = s.stats.eventsFailed := by
          simp [Push, hfull, applyOp]
        have hle : (Push cfg s e).queue.length ≤ queueCapacity cfg := by
          rw [hq1]
          simp
          omega
        rw [List.foldl_cons, ih _ hle, hq1, hf1]
        simp only [List.length_append, List.length_cons, List.length_nil]
        omega
      · have hq1 : (Push cfg s e).queue = s.queue := by
          simp [Push, hfull]
        have hf1 : (Push cfg s e).stats.eventsFailed = s.stats.eventsFailed + 1 := by
          simp [Push, hfull, applyOp]
        have hle : (Push cfg s e).queue.length ≤ queueCapacity cfg := by
          rw [hq1]
          exact h
        rw [List.foldl_cons, ih _ hle, hq1, hf1]
        simp only [List.length_cons]
        omega

/-- C4: `Push` increments `events_received` by one unconditionally; on a
full queue the event is dropped and `events_failed` is incremented by one,
otherwise the event is enqueued at the tail and `events_failed` is
unchanged; `Push` is a total function of the state (it never blocks and
never panics), and pushing `C+1` events into a fresh collector whose queue
has capacity `C`, with no consumer steps, yields
`events_received = C+1` and `events_failed ≥ 1`. -/
theorem push_backpressure (cfg : BatchConfig) (s : Sys) (e : Event) :
    ((Push cfg s e).stats.eventsReceived = s.stats.eventsReceived + 1) ∧
    (queueCapacity cfg ≤ s.queue.length →
       (Push cfg s e).queue = s.queue ∧
       (Push cfg s e).stats.eventsFailed = s.stats.eventsFailed + 1) ∧
    (s.queue.length < queueCapacity cfg →
       (Push cfg s e).queue = s.queue ++ [e] ∧
       (Push cfg s e).stats.eventsFailed = s.stats.eventsFailed) ∧
    ∀ es : List Event, es.length = queueCapacity cfg + 1 →
      (es.foldl (Push cfg) (newCollector cfg)).stats.eventsReceived = es.length ∧
      1 ≤ (es.foldl (Push cfg) (newCollector cfg)).stats.eventsFailed := by
  refine ⟨?_, ?_, ?_, ?_⟩
  · by_cases hc : s.queue.length < queueCapacity cfg <;> simp [Push, hc, applyOp]
  · intro hfull
    have hc : ¬ s.queue.length < queueCapacity cfg := by omega
    exact ⟨by simp [Push, hc], by simp [Push, hc, applyOp]⟩
  · intro hc
    exact ⟨by simp [Push, hc], by simp [Push, hc, applyOp]⟩
  · intro es hlen
    constructor
    · rw [foldl_push_received]
      simp [newCollector, Stats.init]
    · have h0 : (newCollector cfg).queue.length ≤ queueCapacity cfg := by
        simp [newCollector]
      rw [foldl_push_failed cfg es (newCollector cfg) h0]
      simp only [newCollector, List.length_nil, Stats.init]
      omega

theorem push_backpressure_witness :
    ((List.range 11).foldl (Push ⟨1, 0, 1⟩)
        (newCollector ⟨1, 0, 1⟩)).stats.eventsReceived = (List.range 11).length ∧
    1 ≤ ((List.range 11).foldl (Push ⟨1, 0, 1⟩)
        (newCollector ⟨1, 0, 1⟩)).stats.eventsFailed :=
  (push_backpressure ⟨1, 0, 1⟩ (newCollector ⟨1, 0, 1⟩) 0).2.2.2
    (List.range 11) (by decide)

/-- C8: `GetStats` returns `avg_batch_size` equal to the running total of
flushed batch sizes divided by `batches_processed`, and `avg_flush_time_ms`
equal to the running total of flush nanoseconds divided by
`batches_processed` and then by `1e6`, whenever `batches_processed > 0`;
when `batches_processed = 0` both averages are exactly 0 (the division
branch is not taken). `float64` arithmetic is modelled exactly over `ℚ`. -/
theorem getStats_averages (s : Sys) :
    (0 < s.stats.batchesProcessed →
       (GetStats s).avgBatchSize
           = (s.stats.totalBatchSize : ℚ) / (s.stats.batchesProcessed : ℚ) ∧
       (GetStats s).avgFlushTimeMS
           = (s.stats.totalFlushTimeNs : ℚ) / (s.stats.batchesProcessed : ℚ)
             / 1000000) ∧
    (s.stats.batchesProcessed = 0 →
       (GetStats s).avgBatchSize = 0 ∧ (GetStats s).avgFlushTimeMS = 0) := by
  constructor
  · intro h
    constructor <;> simp [GetStats, h]
  · intro h
    constructor <;> simp [GetStats, h]

theorem getStats_averages_witness :
    ((GetStats ⟨[], [], ⟨9, 8, 0, 2, 4000000, 6⟩, [], false, false⟩).avgBatchSize
        = ((6 : Int) : ℚ) / ((2 : Int) : ℚ) ∧
     (GetStats ⟨[], [], ⟨9, 8, 0, 2, 4000000, 6⟩, [], false, false⟩).avgFlushTimeMS
        = ((4000000 : Int) : ℚ) / ((2 : Int) : ℚ) / 1000000) ∧
    ((GetStats ⟨[], [], ⟨9, 8, 0, 0, 0, 0⟩, [], false, false⟩).avgBatchSize = 0 ∧
     (GetStats ⟨[], [], ⟨9, 8, 0, 0, 0, 0⟩, [], false, false⟩).avgFlushTimeMS = 0) :=
  ⟨(getStats_averages ⟨[], [], ⟨9, 8, 0, 2, 4000000, 6⟩, [], false, false⟩).1
      (by decide),
   (getStats_averages ⟨[], [], ⟨9, 8, 0, 0, 0, 0⟩, [], false, false⟩).2 rfl⟩

/-- C7: at enrichment the event timestamp is replaced with current server
time if and only if it is missing (the zero time) or differs from server
time by more than one hour in either direction; a timestamp within one
hour of server time is kept unchanged. The code's condition
`diff < -time.Hour || diff > time.Hour` on `diff = now - t` coincides
exactly with the claim's `|t - now| > 1h`. -/
theorem timestamp_correction (now t : Int) :
    validateTimestamp now t = claimTimestamp now t := by
  by_cases h0 : t = 0
  · simp [validateTimestamp, claimTimestamp, h0]
  · rcases abs_cases (t - now) with ⟨habs, hsign⟩ | ⟨habs, hsign⟩ <;>
      simp only [validateTimestamp, claimTimestamp, h0, false_or, habs,
        if_false] <;>
      split_ifs <;> first | rfl | omega

/-- C10: both storage write paths return success (`nil`) on an empty event
slice and issue no request at all to the connection pool, so the sink's
non-empty-slice precondition is not needed for safety and an empty-slice
call leaves the store untouched. -/
theorem empty_slice_writes (db : DbOp → Option String) :
    InsertFrontendMetrics db [] = ([], none) ∧
    CopyFrontendMetrics db [] = ([], none) :=
  ⟨rfl, rfl⟩

/-! ### C1: monotonicity of the stats counters under concurrent reads -/

theorem interleaving_single {α : Type} (b : List α) : Interleaving [b] b := by
  induction b with
  | nil => exact .nil _ (by simp)
  | cons x rest ih => exact .step [x :: rest] 0 x rest rest rfl ih

theorem interleaving_mem {α : Type} {bs : List (List α)} {tr : List α}
    (h : Interleaving bs tr) : ∀ x ∈ tr, ∃ b ∈ bs, x ∈ b := by
  induction h with
  | nil bs2 hemp => simp
  | step bs2 i x2 rest2 tr2 hb htail ih =>
      intro y hy
      rcases List.mem_cons.mp hy with hyx | hy
      · exact ⟨x2 :: rest2, List.get?_mem hb,
          by rw [hyx]; exact List.mem_cons_self _ _⟩
      · rcases ih y hy with ⟨b, hbmem, hyb⟩
        rcases List.mem_or_eq_of_mem_set hbmem with hbmem2 | hbeq
        · exact ⟨b, hbmem2, hyb⟩
        · exact ⟨x2 :: rest2, List.get?_mem hb,
            List.mem_cons_of_mem _ (hbeq ▸ hyb)⟩

theorem progOp_le5 (op : StatsOp) (s : Stats)
    (h : ∃ b, ProgBlock b ∧ op ∈ b) : StatsLe5 s (applyOp s op) := by
  obtain ⟨b, hb, hop⟩ := h
  rcases hb with ⟨d, rfl⟩ | ⟨n, o, t, _, rfl⟩
  · cases d <;> simp [pushOps] at hop
    · subst hop
      simp [StatsLe5, applyOp]
    · rcases hop with rfl | rfl <;> simp [StatsLe5, applyOp]
  · cases o
    · simp [flushOps] at hop
      rcases hop with rfl | rfl | rfl | rfl <;> simp [StatsLe5, applyOp]
    · simp [flushOps] at hop
      rcases hop with rfl | rfl | rfl | rfl | rfl | rfl <;>
        simp [StatsLe5, applyOp]
    · simp [flushOps] at hop
      rcases hop with rfl | rfl | rfl | rfl <;> simp [StatsLe5, applyOp]

theorem le5_trans {a b c : Stats} (h1 : StatsLe5 a b) (h2 : StatsLe5 b c) :
    StatsLe5 a c := by
  obtain ⟨x1, x2, x3, x4, x5⟩ := h1
  obtain ⟨y1, y2, y3, y4, y5⟩ := h2
  exact ⟨le_trans x1 y1, le_trans x2 y2, le_trans x3 y3, le_trans x4 y4,
    le_trans x5 y5⟩

theorem le5_applyOps (l : List StatsOp) :
    ∀ s : Stats, (∀ op ∈ l, ∃ b, ProgBlock b ∧ op ∈ b) →
      StatsLe5 s (applyOps s l) := by
  induction l with
  | nil => intro s _; exact ⟨le_refl _, le_refl _, le_refl _, le_refl _, le_refl _⟩
  | cons op rest ih =>
      intro s h
      have h1 : StatsLe5 s (applyOp s op) :=
        progOp_le5 op s (h op (List.mem_cons_self _ _))
      have h2 : StatsLe5 (applyOp s op) (applyOps (applyOp s op) rest) :=
        ih (applyOp s op) fun op2 h2 => h op2 (List.mem_cons_of_mem _ h2)
      exact le5_trans h1 h2

/-- C1 (amended): under any interleaving of the atomic counter updates
emitted by `Push`, worker flushes, and shutdown-drain flushes, the five
counters `events_received`, `events_processed`, `batches_processed`,
`total_flush_time`, `total_batch_size` are non-decreasing between any two
successive stats reads; `events_failed` is excluded because the insert
fallback's correction (part_009:106) decreases it. -/
theorem stats_monotone_except_failed (bs : List (List StatsOp))
    (tr : List StatsOp) (hbs : ∀ b ∈ bs, ProgBlock b)
    (hint : Interleaving bs tr) (i j : Nat) (hij : i ≤ j) :
    StatsLe5 (applyOps Stats.init (tr.take i))
      (applyOps Stats.init (tr.take j)) := by
  have hj : j = i + (j - i) := by omega
  have hsplit : tr.take j = tr.take i ++ (tr.drop i).take (j - i) := by
    conv_lhs => rw [hj]
    rw [List.take_add]
  rw [hsplit]
  show StatsLe5 _ (List.foldl applyOp Stats.init _)
  rw [List.foldl_append]
  apply le5_applyOps
  intro op hop
  have hoptr : op ∈ tr := List.drop_subset i tr (List.take_subset _ _ hop)
  obtain ⟨b, hbmem, hopb⟩ := interleaving_mem hint op hoptr
  exact ⟨b, hbs b hbmem, hopb⟩

theorem stats_monotone_except_failed_witness :
    StatsLe5 (applyOps Stats.init ((pushOps false).take 0))
      (applyOps Stats.init ((pushOps false).take 1)) :=
  stats_monotone_except_failed [pushOps false] (pushOps false)
    (by
      intro b hb
      simp at hb
      subst hb
      exact Or.inl ⟨false, rfl⟩)
    (interleaving_single _) 0 1 (by omega)

/-! ### System-level invariants -/

theorem mem_set_self {α : Type} :
    ∀ (l : List α) (i : Nat) (v : α), i < l.length → v ∈ l.set i v := by
  intro l
  induction l with
  | nil => intro i v h; simp at h
  | cons a rest ih =>
      intro i v h
      cases i with
      | zero => simp
      | succ n =>
          simp only [List.set]
          exact List.mem_cons_of_mem _ (ih n v (by simpa using h))

theorem sum_batch_set :
    ∀ (l : List Worker) (i : Nat) (w v : Worker), l.get? i = some w →
      ((l.set i v).map fun x => x.batch.length).sum + w.batch.length
        = (l.map fun x => x.batch.length).sum + v.batch.length := by
  intro l
  induction l with
  | nil => intro i w v h; simp at h
  | cons a rest ih =>
      intro i w v h
      cases i with
      | zero =>
          simp only [List.get?] at h
          injection h with h
          subst h
          simp only [List.set, List.map_cons, List.sum_cons]
          omega
      | succ n =>
          simp only [List.get?] at h
          have := ih n w v h
          simp only [List.set, List.map_cons, List.sum_cons]
          omega

theorem flushStep_batch (o : WriteOutcome) (t : Nat) (s : WState) :
    (flushStep o t s).batch = [] := by
  unfold flushStep
  split
  · next h => exact List.isEmpty_iff.mp h
  · rfl

theorem flushStep_received (o : WriteOutcome) (t : Nat) (s : WState) :
    (flushStep o t s).stats.eventsReceived = s.stats.eventsReceived := by
  unfold flushStep
  split
  · rfl
  · cases o <;> simp [applyOps, flushOps, applyOp]

theorem flushStep_procfail (o : WriteOutcome) (t : Nat) (s : WState) :
    (flushStep o t s).stats.eventsProcessed + (flushStep o t s).stats.eventsFailed
      = s.stats.eventsProcessed + s.stats.eventsFailed + (s.batch.length : Int) := by
  unfold flushStep
  split
  · next h =>
      rw [List.isEmpty_iff.mp h]
      simp
  · cases o <;> simp [applyOps, flushOps, applyOp] <;> ring

theorem flushStep_calls (o : WriteOutcome) (t : Nat) (s : WState) :
    (flushStep o t s).sinkCalls = s.sinkCalls ∨
    (flushStep o t s).sinkCalls = s.sinkCalls ++ flushCalls s.batch o := by
  unfold flushStep
  split
  · exact Or.inl rfl
  · exact Or.inr rfl

theorem handleEvent_received (cfg : BatchConfig) (o : WriteOutcome) (t : Nat)
    (s : WState) (e : Event) :
    (handleEvent cfg o t s e).stats.eventsReceived = s.stats.eventsReceived := by
  unfold handleEvent
  dsimp only
  split
  · exact flushStep_received o t _
  · rfl

theorem handleEvent_acc (cfg : BatchConfig) (o : WriteOutcome) (t : Nat)
    (s : WState) (e : Event) :
    (handleEvent cfg o t s e).stats.eventsProcessed
      + (handleEvent cfg o t s e).stats.eventsFailed
      + ((handleEvent cfg o t s e).batch.length : Int)
      = s.stats.eventsProcessed + s.stats.eventsFailed
        + (s.batch.length : Int) + 1 := by
  unfold handleEvent
  dsimp only
  split
  · rw [flushStep_batch, flushStep_procfail]
    simp
    ring
  · simp
    ring

/-- Sum of the lengths of all worker batches: events buffered in workers. -/
def batchSum (s : Sys) : Nat := (s.workers.map fun w => w.batch.length).sum

/-- Accounting invariant: every received event is (exclusively) counted
processed, counted failed, waiting in the queue, or buffered in some
worker's batch. -/
def accounted (s : Sys) : Prop :=
  s.stats.eventsProcessed + s.stats.eventsFailed
    + (s.queue.length : Int) + (batchSum s : Int) = s.stats.eventsReceived

theorem step_accounted {cfg : BatchConfig} {l : Label} {s s' : Sys}
    (h : Step cfg l s s') (hacc : accounted s) : accounted s' := by
  cases h with
  | push e s =>
      unfold accounted batchSum Push at *
      by_cases hc : s.queue.length < queueCapacity cfg
      · simp only [hc, if_true, applyOp]
        simp only [List.length_append, List.length_cons, List.length_nil]
        omega
      · simp only [hc, if_false, applyOp]
        omega
  | recv i o t s b e q hw hq =>
      have hsum := sum_batch_set s.workers i ⟨.active, b⟩
        ⟨.active, (handleEvent cfg o t ⟨b, s.stats, s.sinkCalls⟩ e).batch⟩ hw
      have hne := handleEvent_acc cfg o t ⟨b, s.stats, s.sinkCalls⟩ e
      have hrc := handleEvent_received cfg o t ⟨b, s.stats, s.sinkCalls⟩ e
      unfold accounted batchSum setW at *
      rw [hq] at hacc
      simp only [List.length_cons] at hacc
      dsimp only at hsum hne hrc ⊢
      rw [hrc]
      omega
  | tick i o t s b hw =>
      have hsum := sum_batch_set s.workers i ⟨.active, b⟩
        ⟨.active, (flushStep o t ⟨b, s.stats, s.sinkCalls⟩).batch⟩ hw
      have hpf := flushStep_procfail o t ⟨b, s.stats, s.sinkCalls⟩
      have hrc := flushStep_received o t ⟨b, s.stats, s.sinkCalls⟩
      unfold accounted batchSum setW at *
      dsimp only at hsum hpf hrc ⊢
      simp only [flushStep_batch, List.length_nil] at hsum ⊢
      rw [hrc]
      omega
  | close s h => exact hacc
  | observe i s b hc hw =>
      have hsum := sum_batch_set s.workers i ⟨.active, b⟩ ⟨.draining, b⟩ hw
      unfold accounted batchSum at *
      dsimp only at hsum ⊢
      omega
  | drainOne i s b e q hw hq =>
      have hsum := sum_batch_set s.workers i ⟨.draining, b⟩
        ⟨.draining, b ++ [e]⟩ hw
      unfold accounted batchSum at *
      rw [hq] at hacc
      simp only [List.length_cons] at hacc
      simp only [List.length_append, List.length_cons, List.length_nil] at hsum
      dsimp only at hsum ⊢
      omega
  | drainFlush i o t s b hw hq =>
      have hsum := sum_batch_set s.workers i ⟨.draining, b⟩
        ⟨.exited, (flushStep o t ⟨b, s.stats, s.sinkCalls⟩).batch⟩ hw
      have hpf := flushStep_procfail o t ⟨b, s.stats, s.sinkCalls⟩
      have hrc := flushStep_received o t ⟨b, s.stats, s.sinkCalls⟩
      unfold accounted batchSum setW at *
      dsimp only at hsum hpf hrc ⊢
      simp only [flushStep_batch, List.length_nil] at hsum ⊢
      rw [hrc]
      omega
  | cancel s => exact hacc
  | cancelExit i o t s b hc hw =>
      have hsum := sum_batch_set s.workers i ⟨.active, b⟩
        ⟨.exited, (flushStep o t ⟨b, s.stats, s.sinkCalls⟩).batch⟩ hw
      have hpf := flushStep_procfail o t ⟨b, s.stats, s.sinkCalls⟩
      have hrc := flushStep_received o t ⟨b, s.stats, s.sinkCalls⟩
      unfold accounted batchSum setW at *
      dsimp only at hsum hpf hrc ⊢
      simp only [flushStep_batch, List.length_nil] at hsum ⊢
      rw [hrc]
      omega

theorem steps_accounted {cfg : BatchConfig} {ls : List Label} {s s' : Sys}
    (h : Steps cfg ls s s') (hacc : accounted s) : accounted s' := by
  induction h with
  | nil s => exact hacc
  | cons l ls s t u hstep hrest ih => exact ih (step_accounted hstep hacc)

theorem step_received {cfg : BatchConfig} {l : Label} {s s' : Sys}
    (h : Step cfg l s s') :
    s'.stats.eventsReceived
      = s.stats.eventsReceived + (if l.isPush then 1 else 0) := by
  cases h with
  | push e s =>
      unfold Push
      by_cases hc : s.queue.length < queueCapacity cfg <;>
        simp [hc, applyOp, Label.isPush]
  | recv i o t s b e q hw hq =>
      simp only [setW, Label.isPush]
      rw [handleEvent_received]
      simp
  | tick i o t s b hw =>
      simp only [setW, Label.isPush]
      rw [flushStep_received]
      simp
  | close s h => simp [Label.isPush]
  | observe i s b hc hw => simp [Label.isPush]
  | drainOne i s b e q hw hq => simp [Label.isPush]
  | drainFlush i o t s b hw hq =>
      simp only [setW, Label.isPush]
      rw [flushStep_received]
      simp
  | cancel s => simp [Label.isPush]
  | cancelExit i o t s b hc hw =>
      simp only [setW, Label.isPush]
      rw [flushStep_received]
      simp

theorem steps_received {cfg : BatchConfig} {ls : List Label} {s s' : Sys}
    (h : Steps cfg ls s s') :
    s'.stats.eventsReceived
      = s.stats.eventsReceived + (ls.countP Label.isPush : Int) := by
  induction h with
  | nil s => simp
  | cons l ls s t u hstep hrest ih =>
      rw [ih, step_received hstep, List.countP_cons]
      by_cases hp : l.isPush
      · simp [hp]
        ring
      · simp [hp]

/-- Workers that have exited flushed first, so their batch is empty. -/
def exitedEmpty (s : Sys) : Prop :=
  ∀ w ∈ s.workers, w.mode = .exited → w.batch = []

theorem exitedEmpty_set {l : List Worker}
    (hinv : ∀ w ∈ l, w.mode = .exited → w.batch = []) (i : Nat) (v : Worker)
    (hv : v.mode = .exited → v.batch = []) :
    ∀ w ∈ l.set i v, w.mode = .exited → w.batch = [] := by
  intro w hw
  rcases List.mem_or_eq_of_mem_set hw with h | h
  · exact hinv w h
  · exact h ▸ hv

theorem step_exitedEmpty {cfg : BatchConfig} {l : Label} {s s' : Sys}
    (h : Step cfg l s s') (hinv : exitedEmpty s) : exitedEmpty s' := by
  cases h with
  | push e s =>
      unfold exitedEmpty Push at *
      by_cases hc : s.queue.length < queueCapacity cfg <;> simp [hc] <;>
        exact hinv
  | recv i o t s b e q hw hq =>
      exact exitedEmpty_set hinv i _ (by intro hx; simp at hx)
  | tick i o t s b hw =>
      exact exitedEmpty_set hinv i _ (by intro hx; simp at hx)
  | close s h => exact hinv
  | observe i s b hc hw =>
      exact exitedEmpty_set hinv i _ (by intro hx; simp at hx)
  | drainOne i s b e q hw hq =>
      exact exitedEmpty_set hinv i _ (by intro hx; simp at hx)
  | drainFlush i o t s b hw hq =>
      exact exitedEmpty_set hinv i _ (fun _ => flushStep_batch o t _)
  | cancel s => exact hinv
  | cancelExit i o t s b hc hw =>
      exact exitedEmpty_set hinv i _ (fun _ => flushStep_batch o t _)

theorem steps_exitedEmpty {cfg : BatchConfig} {ls : List Label} {s s' : Sys}
    (h : Steps cfg ls s s') (hinv : exitedEmpty s) : exitedEmpty s' := by
  induction h with
  | nil s => exact hinv
  | cons l ls s t u hstep hrest ih => exact ih (step_exitedEmpty hstep hinv)

/-- All workers have returned (the state in which `wg.Wait()` unblocks). -/
def allExited (s : Sys) : Prop := ∀ w ∈ s.workers, w.mode = .exited

theorem not_allExited_of_set {s' : Sys} {l : List Worker} {i : Nat}
    {v : Worker} (hw : s'.workers = l.set i v) (hlt : i < l.length)
    (hv : v.mode ≠ .exited) : ¬ allExited s' := by
  intro ha
  exact hv (ha v (by rw [hw]; exact mem_set_self l i v hlt))

theorem get?_lt {α : Type} {l : List α} {i : Nat} {a : α}
    (h : l.get? i = some a) : i < l.length := (List.get?_eq_some.mp h).1

theorem step_allExited_queue {cfg : BatchConfig} {l : Label} {s s' : Sys}
    (h : Step cfg l s s') (hp : l.isPush = false)
    (hce : l.isCancelExit = false) (hinv : allExited s → s.queue = []) :
    allExited s' → s'.queue = [] := by
  cases h with
  | push e s => simp [Label.isPush] at hp
  | cancelExit i o t s b hc hw => simp [Label.isCancelExit] at hce
  | recv i o t s b e q hw hq =>
      intro ha
      exact absurd ha (not_allExited_of_set rfl (get?_lt hw) (by simp))
  | tick i o t s b hw =>
      intro ha
      exact absurd ha (not_allExited_of_set rfl (get?_lt hw) (by simp))
  | close s h => exact hinv
  | observe i s b hc hw =>
      intro ha
      exact absurd ha (not_allExited_of_set rfl (get?_lt hw) (by simp))
  | drainOne i s b e q hw hq =>
      intro ha
      exact absurd ha (not_allExited_of_set rfl (get?_lt hw) (by simp))
  | drainFlush i o t s b hw hq =>
      intro _
      exact hq
  | cancel s => exact hinv

theorem steps_allExited_queue {cfg : BatchConfig} {ls : List Label}
    {s s' : Sys} (h : Steps cfg ls s s')
    (hls : ∀ l ∈ ls, l.isPush = false ∧ l.isCancelExit = false)
    (hinv : allExited s → s.queue = []) : allExited s' → s'.queue = [] := by
  induction h with
  | nil s => exact hinv
  | cons l ls s t u hstep hrest ih =>
      exact ih (fun x hx => hls x (List.mem_cons_of_mem _ hx))
        (step_allExited_queue hstep (hls l (List.mem_cons_self _ _)).1
          (hls l (List.mem_cons_self _ _)).2 hinv)

theorem steps_append {cfg : BatchConfig} {l1 l2 : List Label} {s u : Sys} :
    Steps cfg (l1 ++ l2) s u → ∃ t, Steps cfg l1 s t ∧ Steps cfg l2 t u := by
  induction l1 generalizing s with
  | nil => intro h; exact ⟨s, Steps.nil s, h⟩
  | cons l rest ih =>
      intro h
      cases h with
      | cons _ _ _ t _ hstep hrest =>
          obtain ⟨m, h1, h2⟩ := ih hrest
          exact ⟨m, Steps.cons l rest s t m hstep h1, h2⟩

theorem push_workers (cfg : BatchConfig) (s : Sys) (e : Event) :
    (Push cfg s e).workers = s.workers := by
  unfold Push
  by_cases hc : s.queue.length < queueCapacity cfg <;> simp [hc]

theorem steps_pushonly_workers {cfg : BatchConfig} {ls : List Label}
    {s s' : Sys} (h : Steps cfg ls s s') (hls : ∀ l ∈ ls, l.isPush = true) :
    s'.workers = s.workers := by
  induction h with
  | nil s => rfl
  | cons l ls s t u hstep hrest ih =>
      have h1 : t.workers = s.workers := by
        cases hstep with
        | push e s => exact push_workers cfg s e
        | recv i o t s b e q hw hq =>
            exact absurd (hls _ (List.mem_cons_self _ _)) (by simp [Label.isPush])
        | tick i o t s b hw =>
            exact absurd (hls _ (List.mem_cons_self _ _)) (by simp [Label.isPush])
        | close s h =>
            exact absurd (hls _ (List.mem_cons_self _ _)) (by simp [Label.isPush])
        | observe i s b hc hw =>
            exact absurd (hls _ (List.mem_cons_self _ _)) (by simp [Label.isPush])
        | drainOne i s b e q hw hq =>
            exact absurd (hls _ (List.mem_cons_self _ _)) (by simp [Label.isPush])
        | drainFlush i o t s b hw hq =>
            exact absurd (hls _ (List.mem_cons_self _ _)) (by simp [Label.isPush])
        | cancel s =>
            exact absurd (hls _ (List.mem_cons_self _ _)) (by simp [Label.isPush])
        | cancelExit i o t s b hc hw =>
            exact absurd (hls _ (List.mem_cons_self _ _)) (by simp [Label.isPush])
      rw [ih fun x hx => hls x (List.mem_cons_of_mem _ hx), h1]

/-- C3: if `N` events are pushed with no concurrent producers and
`Shutdown` is then invoked (and the outer context is not cancelled), then
once every worker has exited — the point at which `Shutdown`'s `wg.Wait()`
returns — `events_processed + events_failed = N`: no event that reached
the queue is silently lost. -/
theorem drain_completeness (cfg : BatchConfig) (hW : 1 ≤ cfg.workers)
    (es : List Event) (rest : List Label)
    (hrest : ∀ l ∈ rest, l.isPush = false ∧ l.isCancelExit = false)
    (final : Sys)
    (hrun : Steps cfg (es.map Label.push ++ rest) (newCollector cfg) final)
    (hdone : ∀ w ∈ final.workers, w.mode = .exited) :
    final.stats.eventsProcessed + final.stats.eventsFailed
      = (es.length : Int) := by
  obtain ⟨mid, hp, hr⟩ := steps_append hrun
  -- the fresh collector satisfies the accounting invariant
  have hacc0 : accounted (newCollector cfg) := by
    unfold accounted batchSum newCollector Stats.init
    simp
  have haccF : accounted final :=
    steps_accounted hr (steps_accounted hp hacc0)
  -- the pushes leave the worker pool untouched, so `mid` has a live worker
  have hmidw : mid.workers = (newCollector cfg).workers :=
    steps_pushonly_workers hp (by
      intro l hl
      obtain ⟨e, _, rfl⟩ := List.mem_map.mp hl
      rfl)
  have hmidq : allExited mid → mid.queue = [] := by
    intro ha
    exfalso
    have hmem : (⟨.active, []⟩ : Worker) ∈ mid.workers := by
      rw [hmidw]
      unfold newCollector
      simp only
      exact List.mem_replicate.mpr ⟨by omega, rfl⟩
    have := ha _ hmem
    simp at this
  -- after the push prefix, the push-free suffix keeps the key facts
  have hqF : final.queue = [] :=
    steps_allExited_queue hr hrest hmidq hdone
  have hbF : batchSum final = 0 := by
    have hee : exitedEmpty final :=
      steps_exitedEmpty hr (steps_exitedEmpty hp (by
        intro w hw hx
        unfold newCollector at hw
        simp only at hw
        rw [List.eq_of_mem_replicate hw] at hx
        simp at hx))
    unfold batchSum
    apply List.sum_eq_zero
    intro x hx
    obtain ⟨w, hw, rfl⟩ := List.mem_map.mp hx
    rw [hee w hw (hdone w hw)]
    rfl
  -- count the pushes
  have hrecv : final.stats.eventsReceived = (es.length : Int) := by
    have h1 := steps_received hrun
    rw [List.countP_append] at h1
    have h2 : (es.map Label.push).countP Label.isPush = es.length := by
      rw [List.countP_eq_length.mpr]
      · simp
      · intro a ha
        obtain ⟨e, _, rfl⟩ := List.mem_map.mp ha
        rfl
    have h3 : rest.countP Label.isPush = 0 := by
      rw [List.countP_eq_zero.mpr]
      intro a ha
      simp [(hrest a ha).1]
    rw [h2, h3] at h1
    simp only [newCollector, Stats.init] at h1
    simpa using h1
  unfold accounted at haccF
  rw [hqF, hbF, hrecv] at haccF
  simpa using haccF

theorem drain_completeness_witness :
    (⟨[], [⟨.exited, []⟩], ⟨1, 1, 0, 1, 0, 1⟩, [.copy [7]], true, false⟩ :
        Sys).stats.eventsProcessed
      + (⟨[], [⟨.exited, []⟩], ⟨1, 1, 0, 1, 0, 1⟩, [.copy [7]], true, false⟩ :
        Sys).stats.eventsFailed
      = ((([7] : List Event).length : Nat) : Int) :=
  drain_completeness ⟨1, 0, 1⟩ (by decide) [7]
    [.close, .observe 0, .drainOne 0, .drainFlush 0 .copyOk 0]
    (by decide)
    ⟨[], [⟨.exited, []⟩], ⟨1, 1, 0, 1, 0, 1⟩, [.copy [7]], true, false⟩
    (Steps.cons _ _
      ⟨[], [⟨.active, []⟩], ⟨0, 0, 0, 0, 0, 0⟩, [], false, false⟩
      ⟨[7], [⟨.active, []⟩], ⟨1, 0, 0, 0, 0, 0⟩, [], false, false⟩
      ⟨[], [⟨.exited, []⟩], ⟨1, 1, 0, 1, 0, 1⟩, [.copy [7]], true, false⟩
      (Step.push 7 _)
      (Steps.cons _ _ _
        ⟨[7], [⟨.active, []⟩], ⟨1, 0, 0, 0, 0, 0⟩, [], true, false⟩
        _
        (Step.close _ (by decide))
        (Steps.cons _ _ _
          ⟨[7], [⟨.draining, []⟩], ⟨1, 0, 0, 0, 0, 0⟩, [], true, false⟩
          _
          (Step.observe 0 _ [] (by decide) (by decide))
          (Steps.cons _ _ _
            ⟨[], [⟨.draining, [7]⟩], ⟨1, 0, 0, 0, 0, 0⟩, [], true, false⟩
            _
            (Step.drainOne 0 _ [] 7 [] (by decide) (by decide))
            (Steps.cons _ _ _
              ⟨[], [⟨.exited, []⟩], ⟨1, 1, 0, 1, 0, 1⟩, [.copy [7]], true, false⟩
              _
              (Step.drainFlush 0 .copyOk 0 _ [7] (by decide) (by decide))
              (Steps.nil _))))))
    (by decide)

/-- C1 is false as stated: the trace of the single flush in which the bulk
copy fails and the insert fallback succeeds (batch size 1) is a program
interleaving in which `events_failed` is 1 after its third-from-last
update and 0 after the correction, so a later read is smaller. -/
theorem stats_monotone_counterexample : ¬ statsMonotoneClaim := by
  intro h
  have hblocks : ∀ b ∈ [flushOps 1 .copyFailInsertOk 0], ProgBlock b := by
    intro b hb
    simp at hb
    subst hb
    exact Or.inr ⟨1, .copyFailInsertOk, 0, one_pos, rfl⟩
  have := h [flushOps 1 .copyFailInsertOk 0] (flushOps 1 .copyFailInsertOk 0)
    hblocks (interleaving_single _) 1 3 (by omega)
  revert this
  decide

/-! ### C9: bounds on the size of flushed batches -/

theorem forall_mem_set {α : Type} {P : α → Prop} {l : List α}
    (h : ∀ w ∈ l, P w) (i : Nat) {v : α} (hv : P v) :
    ∀ w ∈ l.set i v, P w := by
  intro w hw
  rcases List.mem_or_eq_of_mem_set hw with h2 | h2
  · exact h w h2
  · exact h2 ▸ hv

theorem handleEvent_batch_lt {cfg : BatchConfig} (o : WriteOutcome) (t : Nat)
    {s : WState} (e : Event) (hB : 1 ≤ cfg.batchSize)
    (_h : s.batch.length < cfg.batchSize) :
    (handleEvent cfg o t s e).batch.length < cfg.batchSize := by
  unfold handleEvent
  dsimp only
  split
  · rw [flushStep_batch]
    simpa using hB
  · next hcond =>
      simp only [List.length_append, List.length_cons, List.length_nil] at hcond ⊢
      omega

theorem handleEvent_calls (cfg : BatchConfig) (o : WriteOutcome) (t : Nat)
    (s : WState) (e : Event) :
    (handleEvent cfg o t s e).sinkCalls = s.sinkCalls ∨
    (handleEvent cfg o t s e).sinkCalls
      = s.sinkCalls ++ flushCalls (s.batch ++ [e]) o := by
  unfold handleEvent
  dsimp only
  split
  · exact flushStep_calls o t _
  · exact Or.inl rfl

theorem copyPayloads_bound {P : List Event → Prop} {sc : List SinkCall}
    {b : List Event} {o : WriteOutcome}
    (h : ∀ bp ∈ copyPayloads sc, P bp) (hb : P b) :
    ∀ bp ∈ copyPayloads (sc ++ flushCalls b o), P bp := by
  rw [copyPayloads_append, copyPayloads_flushCalls]
  intro bp hbp
  rcases List.mem_append.mp hbp with h2 | h2
  · exact h bp h2
  · rw [List.mem_singleton.mp h2]
    exact hb

/-- No worker has a batch of the configured size or more while in its main
loop (it would have flushed on reaching the size). -/
def activeSmall (cfg : BatchConfig) (s : Sys) : Prop :=
  ∀ w ∈ s.workers, w.mode = .active → w.batch.length < cfg.batchSize

/-- No worker is in the shutdown drain loop. -/
def noDraining (s : Sys) : Prop := ∀ w ∈ s.workers, w.mode ≠ .draining

/-- Every batch handed to the bulk-copy path so far has length at most `n`. -/
def copyBounded (n : Nat) (s : Sys) : Prop :=
  ∀ bp ∈ copyPayloads s.sinkCalls, bp.length ≤ n

/-- Invariant of runs that never see the shutdown signal. -/
def NormalInv (cfg : BatchConfig) (s : Sys) : Prop :=
  s.closed = false ∧ noDraining s ∧ activeSmall cfg s ∧
    copyBounded cfg.batchSize s

theorem step_normalInv {cfg : BatchConfig} {l : Label} {s s' : Sys}
    (hB : 1 ≤ cfg.batchSize) (h : Step cfg l s s') (hcl : l ≠ Label.close)
    (hinv : NormalInv cfg s) : NormalInv cfg s' := by
  obtain ⟨h1, h2, h3, h4⟩ := hinv
  cases h with
  | push e s =>
      unfold NormalInv noDraining activeSmall copyBounded Push at *
      by_cases hc : s.queue.length < queueCapacity cfg <;>
        simp only [hc, if_true, if_false] <;>
        exact ⟨h1, h2, h3, h4⟩
  | recv i o t s b e q hw hq =>
      have hblt : b.length < cfg.batchSize := h3 _ (List.get?_mem hw) rfl
      refine ⟨h1, ?_, ?_, ?_⟩
      · exact forall_mem_set h2 i (by simp)
      · exact forall_mem_set h3 i fun _ =>
          handleEvent_batch_lt o t e hB (by simpa using hblt)
      · show copyBounded _ _
        unfold copyBounded setW
        dsimp only
        rcases handleEvent_calls cfg o t ⟨b, s.stats, s.sinkCalls⟩ e with hc | hc
        · rw [hc]
          exact h4
        · rw [hc]
          exact copyPayloads_bound h4 (by
            simp only [List.length_append, List.length_cons, List.length_nil]
            omega)
  | tick i o t s b hw =>
      have hblt : b.length < cfg.batchSize := h3 _ (List.get?_mem hw) rfl
      refine ⟨h1, ?_, ?_, ?_⟩
      · exact forall_mem_set h2 i (by simp)
      · exact forall_mem_set h3 i (by
          intro _
          rw [flushStep_batch]
          simpa using hB)
      · show copyBounded _ _
        unfold copyBounded setW
        dsimp only
        rcases flushStep_calls o t ⟨b, s.stats, s.sinkCalls⟩ with hc | hc
        · rw [hc]
          exact h4
        · rw [hc]
          exact copyPayloads_bound h4 (by dsimp only; omega)
  | close s h => exact absurd rfl hcl
  | observe i s b hc hw =>
      rw [hc] at h1
      cases h1
  | drainOne i s b e q hw hq =>
      exact absurd rfl (h2 _ (List.get?_mem hw))
  | drainFlush i o t s b hw hq =>
      exact absurd rfl (h2 _ (List.get?_mem hw))
  | cancel s => exact ⟨h1, h2, h3, h4⟩
  | cancelExit i o t s b hc hw =>
      have hblt : b.length < cfg.batchSize := h3 _ (List.get?_mem hw) rfl
      refine ⟨h1, ?_, ?_, ?_⟩
      · exact forall_mem_set h2 i (by simp)
      · exact forall_mem_set h3 i (by intro hx; cases hx)
      · show copyBounded _ _
        unfold copyBounded setW
        dsimp only
        rcases flushStep_calls o t ⟨b, s.stats, s.sinkCalls⟩ with hc2 | hc2
        · rw [hc2]
          exact h4
        · rw [hc2]
          exact copyPayloads_bound h4 (by dsimp only; omega)

theorem steps_normalInv {cfg : BatchConfig} {ls : List Label} {s s' : Sys}
    (hB : 1 ≤ cfg.batchSize) (h : Steps cfg ls s s')
    (hcl : ∀ l ∈ ls, l ≠ Label.close) (hinv : NormalInv cfg s) :
    NormalInv cfg s' := by
  induction h with
  | nil s => exact hinv
  | cons l ls s t u hstep hrest ih =>
      exact ih (fun x hx => hcl x (List.mem_cons_of_mem _ hx))
        (step_normalInv hB hstep (hcl l (List.mem_cons_self _ _)) hinv)

/-- A worker inside the drain loop holds at most `batch_size - 1` events
accumulated before the drain plus everything it has drained so far; the
sum of its batch and what is still queued stays below
`batch_size + capacity`. -/
def drainBound (cfg : BatchConfig) (s : Sys) : Prop :=
  ∀ w ∈ s.workers, w.mode = .draining →
    w.batch.length + s.queue.length + 1 ≤ cfg.batchSize + queueCapacity cfg

/-- Every batch handed to the bulk-copy path so far has length at most
`batch_size + capacity - 1`. -/
def copyBounded11 (cfg : BatchConfig) (s : Sys) : Prop :=
  ∀ bp ∈ copyPayloads s.sinkCalls,
    bp.length + 1 ≤ cfg.batchSize + queueCapacity cfg

/-- Invariant of the push-free part of a run (producers stopped). -/
def DrainInv (cfg : BatchConfig) (s : Sys) : Prop :=
  activeSmall cfg s ∧ s.queue.length ≤ queueCapacity cfg ∧
    drainBound cfg s ∧ copyBounded11 cfg s

theorem step_drainInv {cfg : BatchConfig} {l : Label} {s s' : Sys}
    (hB : 1 ≤ cfg.batchSize) (h : Step cfg l s s') (hp : l.isPush = false)
    (hinv : DrainInv cfg s) : DrainInv cfg s' := by
  obtain ⟨h1, h2, h3, h4⟩ := hinv
  have hcap : 1 ≤ queueCapacity cfg := by
    unfold queueCapacity
    omega
  cases h with
  | push e s => simp [Label.isPush] at hp
  | recv i o t s b e q hw hq =>
      have hblt : b.length < cfg.batchSize := h1 _ (List.get?_mem hw) rfl
      have hql : s.queue.length = q.length + 1 := by rw [hq]; rfl
      refine ⟨?_, ?_, ?_, ?_⟩
      · exact forall_mem_set h1 i fun _ =>
          handleEvent_batch_lt o t e hB (by simpa using hblt)
      · dsimp only
        omega
      · intro w hw2 hmode
        dsimp only at hw2 ⊢
        rcases List.mem_or_eq_of_mem_set hw2 with h5 | h5
        · have := h3 w h5 hmode
          omega
        · rw [h5] at hmode
          cases hmode
      · show copyBounded11 _ _
        unfold copyBounded11 setW
        dsimp only
        rcases handleEvent_calls cfg o t ⟨b, s.stats, s.sinkCalls⟩ e with hc | hc
        · rw [hc]
          exact h4
        · rw [hc]
          exact copyPayloads_bound h4 (by
            simp only [List.length_append, List.length_cons, List.length_nil]
            omega)
  | tick i o t s b hw =>
      have hblt : b.length < cfg.batchSize := h1 _ (List.get?_mem hw) rfl
      refine ⟨?_, h2, ?_, ?_⟩
      · exact forall_mem_set h1 i (by
          intro _
          rw [flushStep_batch]
          simpa using hB)
      · intro w hw2 hmode
        rcases List.mem_or_eq_of_mem_set hw2 with h5 | h5
        · exact h3 w h5 hmode
        · rw [h5] at hmode
          cases hmode
      · show copyBounded11 _ _
        unfold copyBounded11 setW
        dsimp only
        rcases flushStep_calls o t ⟨b, s.stats, s.sinkCalls⟩ with hc | hc
        · rw [hc]
          exact h4
        · rw [hc]
          exact copyPayloads_bound h4 (by dsimp only; omega)
  | close s h => exact ⟨h1, h2, h3, h4⟩
  | observe i s b hc hw =>
      have hblt : b.length < cfg.batchSize := h1 _ (List.get?_mem hw) rfl
      refine ⟨?_, h2, ?_, h4⟩
      · exact forall_mem_set h1 i (by intro hx; cases hx)
      · intro w hw2 hmode
        have hq2 : ({ s with workers := s.workers.set i ⟨Mode.draining, b⟩ } :
            Sys).queue = s.queue := rfl
        rw [hq2]
        rcases List.mem_or_eq_of_mem_set hw2 with h5 | h5
        · exact h3 w h5 hmode
        · rw [h5]
          show b.length + s.queue.length + 1 ≤ _
          omega
  | drainOne i s b e q hw hq =>
      have hql : s.queue.length = q.length + 1 := by rw [hq]; rfl
      have hdb : b.length + s.queue.length + 1
          ≤ cfg.batchSize + queueCapacity cfg := h3 _ (List.get?_mem hw) rfl
      refine ⟨?_, ?_, ?_, h4⟩
      · exact forall_mem_set h1 i (by intro hx; cases hx)
      · dsimp only
        omega
      · intro w hw2 hmode
        dsimp only at hw2 ⊢
        rcases List.mem_or_eq_of_mem_set hw2 with h5 | h5
        · have := h3 w h5 hmode
          omega
        · rw [h5]
          dsimp only
          simp only [List.length_append, List.length_cons, List.length_nil]
          omega
  | drainFlush i o t s b hw hq =>
      have hdb : b.length + s.queue.length + 1
          ≤ cfg.batchSize + queueCapacity cfg := h3 _ (List.get?_mem hw) rfl
      have hq0 : s.queue.length = 0 := by rw [hq]; rfl
      refine ⟨?_, h2, ?_, ?_⟩
      · exact forall_mem_set h1 i (by intro hx; cases hx)
      · intro w hw2 hmode
        rcases List.mem_or_eq_of_mem_set hw2 with h5 | h5
        · exact h3 w h5 hmode
        · rw [h5] at hmode
          cases hmode
      · show copyBounded11 _ _
        unfold copyBounded11 setW
        dsimp only
        rcases flushStep_calls o t ⟨b, s.stats, s.sinkCalls⟩ with hc | hc
        · rw [hc]
          exact h4
        · rw [hc]
          exact copyPayloads_bound h4 (by dsimp only; omega)
  | cancel s => exact ⟨h1, h2, h3, h4⟩
  | cancelExit i o t s b hc hw =>
      have hblt : b.length < cfg.batchSize := h1 _ (List.get?_mem hw) rfl
      refine ⟨?_, h2, ?_, ?_⟩
      · exact forall_mem_set h1 i (by intro hx; cases hx)
      · intro w hw2 hmode
        rcases List.mem_or_eq_of_mem_set hw2 with h5 | h5
        · exact h3 w h5 hmode
        · rw [h5] at hmode
          cases hmode
      · show copyBounded11 _ _
        unfold copyBounded11 setW
        dsimp only
        rcases flushStep_calls o t ⟨b, s.stats, s.sinkCalls⟩ with hc2 | hc2
        · rw [hc2]
          exact h4
        · rw [hc2]
          exact copyPayloads_bound h4 (by dsimp only; omega)

theorem steps_drainInv {cfg : BatchConfig} {ls : List Label} {s s' : Sys}
    (hB : 1 ≤ cfg.batchSize) (h : Steps cfg ls s s')
    (hp : ∀ l ∈ ls, l.isPush = false) (hinv : DrainInv cfg s) :
    DrainInv cfg s' := by
  induction h with
  | nil s => exact hinv
  | cons l ls s t u hstep hrest ih =>
      exact ih (fun x hx => hp x (List.mem_cons_of_mem _ hx))
        (step_drainInv hB hstep (hp l (List.mem_cons_self _ _)) hinv)

theorem isPush_exists {l : Label} (h : l.isPush = true) : ∃ e, l = .push e := by
  cases l <;> simp [Label.isPush] at h ⊢

theorem push_fields (cfg : BatchConfig) (s : Sys) (e : Event) :
    (Push cfg s e).workers = s.workers ∧
    (Push cfg s e).sinkCalls = s.sinkCalls ∧
    (Push cfg s e).closed = s.closed ∧
    (Push cfg s e).queue.length ≤ s.queue.length + 1 := by
  unfold Push
  by_cases hc : s.queue.length < queueCapacity cfg <;> simp [hc]

theorem push_queue_le (cfg : BatchConfig) (s : Sys) (e : Event)
    (h : s.queue.length ≤ queueCapacity cfg) :
    (Push cfg s e).queue.length ≤ queueCapacity cfg := by
  unfold Push
  by_cases hc : s.queue.length < queueCapacity cfg <;> simp [hc] <;> omega

theorem steps_pushonly_facts {cfg : BatchConfig} {ls : List Label}
    {s s' : Sys} (h : Steps cfg ls s s') (hls : ∀ l ∈ ls, l.isPush = true) :
    s'.workers = s.workers ∧ s'.sinkCalls = s.sinkCalls ∧
      (s.queue.length ≤ queueCapacity cfg →
        s'.queue.length ≤ queueCapacity cfg) := by
  induction h with
  | nil s => exact ⟨rfl, rfl, fun h => h⟩
  | cons l ls s t u hstep hrest ih =>
      obtain ⟨e, rfl⟩ := isPush_exists (hls _ (List.mem_cons_self _ _))
      cases hstep with
      | push _ _ =>
          obtain ⟨i1, i2, i3⟩ := ih fun x hx => hls x (List.mem_cons_of_mem _ hx)
          refine ⟨?_, ?_, ?_⟩
          · rw [i1, (push_fields cfg s e).1]
          · rw [i2, (push_fields cfg s e).2.1]
          · intro hcap
            exact i3 (push_queue_le cfg s e hcap)

/-- C9: every batch handed to the storage sink on the normal receive path
(a run that never sees the shutdown signal) has length at most
`batch_size`; on the shutdown-drain path the worker appends every queued
event with no intermediate flush, so with producers stopped every flushed
batch is still bounded by `(batch_size - 1) + 10*batch_size`, i.e.
`11*batch_size - 1`; and the drain flush can strictly exceed `batch_size`,
witnessed with `batch_size = 1` and a drained batch of length 2. -/
theorem batch_length_bounds (cfg : BatchConfig) (hB : 1 ≤ cfg.batchSize) :
    (∀ ls final, Steps cfg ls (newCollector cfg) final →
        (∀ l ∈ ls, l ≠ Label.close) →
        ∀ bp ∈ copyPayloads final.sinkCalls, bp.length ≤ cfg.batchSize) ∧
    (∀ (es : List Event) (rest : List Label) final,
        (∀ l ∈ rest, l.isPush = false) →
        Steps cfg (es.map Label.push ++ rest) (newCollector cfg) final →
        ∀ bp ∈ copyPayloads final.sinkCalls,
          bp.length ≤ 11 * cfg.batchSize - 1) ∧
    (∃ ls final bp, Steps ⟨1, 0, 1⟩ ls (newCollector ⟨1, 0, 1⟩) final ∧
        bp ∈ copyPayloads final.sinkCalls ∧
        (⟨1, 0, 1⟩ : BatchConfig).batchSize < bp.length) := by
  have hinv0 : ∀ w ∈ (newCollector cfg).workers,
      w.mode = Mode.active ∧ w.batch = [] := by
    intro w hw
    unfold newCollector at hw
    simp only at hw
    rw [List.eq_of_mem_replicate hw]
    exact ⟨rfl, rfl⟩
  refine ⟨?_, ?_, ?_⟩
  · intro ls final hrun hcl
    have hN : NormalInv cfg final := by
      refine steps_normalInv hB hrun hcl ⟨rfl, ?_, ?_, ?_⟩
      · intro w hw
        rw [(hinv0 w hw).1]
        simp
      · intro w hw _
        rw [(hinv0 w hw).2]
        simpa using hB
      · intro bp hbp
        simp [newCollector, copyPayloads] at hbp
    exact hN.2.2.2
  · intro es rest final hrest hrun
    obtain ⟨mid, hpseg, hrseg⟩ := steps_append hrun
    have hpush : ∀ l ∈ es.map Label.push, l.isPush = true := by
      intro l hl
      obtain ⟨e, _, rfl⟩ := List.mem_map.mp hl
      rfl
    obtain ⟨hw, hsc, hqc⟩ := steps_pushonly_facts hpseg hpush
    have hmid : DrainInv cfg mid := by
      refine ⟨?_, ?_, ?_, ?_⟩
      · intro w hwm _
        rw [hw] at hwm
        rw [(hinv0 w hwm).2]
        simpa using hB
      · exact hqc (by simp [newCollector])
      · intro w hwm hmode
        rw [hw] at hwm
        rw [(hinv0 w hwm).1] at hmode
        cases hmode
      · intro bp hbp
        rw [hsc] at hbp
        simp [newCollector, copyPayloads] at hbp
    have hF : DrainInv cfg final := steps_drainInv hB hrseg hrest hmid
    intro bp hbp
    have := hF.2.2.2 bp hbp
    unfold queueCapacity at this
    omega
  · refine ⟨[.push 5, .push 6, .close, .observe 0, .drainOne 0, .drainOne 0,
        .drainFlush 0 .copyOk 0],
      ⟨[], [⟨.exited, []⟩], ⟨2, 2, 0, 1, 0, 2⟩, [.copy [5, 6]], true, false⟩,
      [5, 6], ?_, by decide, by decide⟩
    exact
      Steps.cons _ _
        ⟨[], [⟨.active, []⟩], ⟨0, 0, 0, 0, 0, 0⟩, [], false, false⟩
        ⟨[5], [⟨.active, []⟩], ⟨1, 0, 0, 0, 0, 0⟩, [], false, false⟩
        _
        (Step.push 5 _)
        (Steps.cons _ _ _
          ⟨[5, 6], [⟨.active, []⟩], ⟨2, 0, 0, 0, 0, 0⟩, [], false, false⟩
          _
          (Step.push 6 _)
          (Steps.cons _ _ _
            ⟨[5, 6], [⟨.active, []⟩], ⟨2, 0, 0, 0, 0, 0⟩, [], true, false⟩
            _
            (Step.close _ (by decide))
            (Steps.cons _ _ _
              ⟨[5, 6], [⟨.draining, []⟩], ⟨2, 0, 0, 0, 0, 0⟩, [], true, false⟩
              _
              (Step.observe 0 _ [] (by decide) (by decide))
              (Steps.cons _ _ _
                ⟨[6], [⟨.draining, [5]⟩], ⟨2, 0, 0, 0, 0, 0⟩, [], true, false⟩
                _
                (Step.drainOne 0 _ [] 5 [6] (by decide) (by decide))
                (Steps.cons _ _ _
                  ⟨[], [⟨.draining, [5, 6]⟩], ⟨2, 0, 0, 0, 0, 0⟩, [], true,
                    false⟩
                  _
                  (Step.drainOne 0 _ [5] 6 [] (by decide) (by decide))
                  (Steps.cons _ _ _
                    ⟨[], [⟨.exited, []⟩], ⟨2, 2, 0, 1, 0, 2⟩, [.copy [5, 6]],
                      true, false⟩
                    _
                    (Step.drainFlush 0 .copyOk 0 _ [5, 6] (by decide)
                      (by decide))
                    (Steps.nil _)))))))

theorem batch_length_bounds_witness :
    ∃ ls final bp, Steps ⟨1, 0, 1⟩ ls (newCollector ⟨1, 0, 1⟩) final ∧
      bp ∈ copyPayloads final.sinkCalls ∧
      (⟨1, 0, 1⟩ : BatchConfig).batchSize < bp.length :=
  (batch_length_bounds ⟨1, 0, 1⟩ (by decide)).2.2

end Pulse
